import Mathlib

/-!
Verification of `src/DotML.Utils/Safetensor/st_display.py`.

The script is:

```python
tensors = {}
for path in sys.argv[1:]:
    with safe_open(path, framework="pt", device="cpu") as f:
        for k in f.keys():
            tensors[k] = f.get_tensor(k)
print(tensors)
```

The external container-reading capability (`safe_open`) is modelled as an
opaque environment mapping each path to an optional container; a container
exposes an ordered list of names (`keys`, the order the library enumerates
them in) and a fallible per-name retrieval function (`get_tensor`).  Tensor
values are an arbitrary type `V`.  Python exceptions are modelled by
`Option`: `none` is an uncaught error propagating to the process boundary.
The Python `dict` is modelled as an association list with unique keys and
Python's assignment semantics: an existing key is overwritten in place, a
new key is appended at the end.  A second, instrumented semantics records
the observable events (handle acquisition, per-name retrieval, handle
release, final print) to settle the resource-scoping and output claims.
-/

/-- A tensor container handle as exposed by `safe_open`: the ordered list of
tensor names it enumerates (`f.keys()`) and retrieval of the tensor stored
under a name (`f.get_tensor(k)`, which can fail on a corrupt entry). -/
structure Container (V : Type) where
  keys : List String
  get_tensor : String → Option V

/-- The external capability: opening a path yields a container handle or
fails (invalid path, not a valid container). -/
def Env (V : Type) := String → Option (Container V)

/-- The Python `dict` state: an association list of name/value pairs. -/
abbrev Dict (V : Type) := List (String × V)

/-- Lookup of a key in the dict (first matching entry). -/
def dlookup {V : Type} : Dict V → String → Option V
  | [], _ => none
  | (k', v) :: rest, k => if k = k' then some v else dlookup rest k

/-- The list of keys of the dict, in entry order. -/
def dkeys {V : Type} (d : Dict V) : List String :=
  d.map Prod.fst

/-- Python dict assignment `d[k] = v`: if `k` is already a key its entry is
overwritten in place, otherwise the new pair is appended at the end. -/
def dictInsert {V : Type} (d : Dict V) (k : String) (v : V) : Dict V :=
  if k ∈ dkeys d then d.map (fun kv => if kv.1 = k then (k, v) else kv)
  else d ++ [(k, v)]

/-- The inner loop `for k in f.keys(): tensors[k] = f.get_tensor(k)`, run on
an explicit list of names: each retrieval either fails (propagating) or its
result is inserted into the dict. -/
def processKeys {V : Type} (f : Container V) (d : Dict V) : List String → Option (Dict V)
  | [] => some d
  | k :: ks =>
    match f.get_tensor k with
    | none => none
    | some v => processKeys f (dictInsert d k v) ks

/-- One iteration of the outer loop: `with safe_open(path, ...) as f:`
followed by the inner loop over `f.keys()`. -/
def processPath {V : Type} (env : Env V) (d : Dict V) (path : String) : Option (Dict V) :=
  match env path with
  | none => none
  | some f => processKeys f d f.keys

/-- The outer loop `for path in sys.argv[1:]`, starting from dict `d`. -/
def collectFrom {V : Type} (env : Env V) (d : Dict V) : List String → Option (Dict V)
  | [] => some d
  | p :: ps =>
    match processPath env d p with
    | none => none
    | some d' => collectFrom env d' ps

/-- The whole accumulation: start from the empty dict `tensors = {}` and run
the outer loop over the supplied path list. -/
def collect {V : Type} (env : Env V) (paths : List String) : Option (Dict V) :=
  collectFrom env [] paths

/-! ## Instrumented (trace) semantics

The same program, additionally recording the externally observable events:
acquiring a container handle, retrieving a name, releasing the handle (the
`with` block releases even when a retrieval inside it fails), and the final
`print(tensors)` (which happens only when no failure occurred). -/

/-- Observable events of a run. -/
inductive Event (V : Type) where
  | acquire (path : String)
  | getT (path : String) (k : String)
  | release (path : String)
  | print (d : Dict V)

/-- Inner loop with trace: each attempted retrieval is recorded; a failing
retrieval is the last event of the loop. -/
def processKeysTr {V : Type} (f : Container V) (p : String) (d : Dict V) :
    List String → List (Event V) × Option (Dict V)
  | [] => ([], some d)
  | k :: ks =>
    match f.get_tensor k with
    | none => ([Event.getT p k], none)
    | some v =>
      let r := processKeysTr f p (dictInsert d k v) ks
      (Event.getT p k :: r.1, r.2)

/-- One outer iteration with trace: a failed open records nothing (no handle
was acquired); a successful open records the acquisition, the retrievals,
and — unconditionally, as the scoped `with` guarantees — the release. -/
def processPathTr {V : Type} (env : Env V) (d : Dict V) (path : String) :
    List (Event V) × Option (Dict V) :=
  match env path with
  | none => ([], none)
  | some f =>
    let r := processKeysTr f path d f.keys
    (Event.acquire path :: r.1 ++ [Event.release path], r.2)

/-- Outer loop with trace: a failure stops the run (later paths are never
visited), a success continues with the updated dict. -/
def collectTr {V : Type} (env : Env V) (d : Dict V) : List String → List (Event V) × Option (Dict V)
  | [] => ([], some d)
  | p :: ps =>
    let r := processPathTr env d p
    match r.2 with
    | none => (r.1, none)
    | some d' =>
      let s := collectTr env d' ps
      (r.1 ++ s.1, s.2)

/-- The whole program: run the accumulation from the empty dict; when it
completes, `print(tensors)` emits the final mapping; when it fails, the
error propagates and nothing is printed. -/
def run {V : Type} (env : Env V) (paths : List String) : List (Event V) :=
  let r := collectTr env [] paths
  match r.2 with
  | none => r.1
  | some d => r.1 ++ [Event.print d]

/-- Scoped-resource discipline checker: scanning the trace left to right, at
most one handle is open at a time, a handle is acquired only when none is
open, retrievals happen only under the handle of their own path, and every
acquired handle is released before anything else happens outside it. -/
def scopedOk {V : Type} : Option String → List (Event V) → Bool
  | none, [] => true
  | none, Event.acquire p :: rest => scopedOk (some p) rest
  | none, Event.print _ :: rest => scopedOk none rest
  | some p, Event.getT q _ :: rest => p == q && scopedOk (some p) rest
  | some p, Event.release q :: rest => p == q && scopedOk none rest
  | _, _ => false

/-- Success of one path: the container opens and every enumerated name
retrieves successfully. -/
def pathOk {V : Type} (env : Env V) (p : String) : Prop :=
  ∃ f, env p = some f ∧ ∀ k ∈ f.keys, (f.get_tensor k).isSome

/-- The value the run leaves bound to `k`, read off the path list: the last
path whose container contains `k` determines it (later paths take
precedence over earlier ones). -/
def lastFound {V : Type} (env : Env V) : List String → String → Option V
  | [], _ => none
  | p :: ps, k =>
    match lastFound env ps k with
    | some v => some v
    | none =>
      match env p with
      | none => none
      | some f => if k ∈ f.keys then f.get_tensor k else none

/-! ## Basic dict lemmas -/

theorem dlookup_eq_none {V : Type} (d : Dict V) (k : String) (h : k ∉ dkeys d) :
    dlookup d k = none := by
  induction d with
  | nil => rfl
  | cons kv rest ih =>
    obtain ⟨k', v⟩ := kv
    simp only [dkeys, List.map_cons, List.mem_cons] at h
    push_neg at h
    simp only [dlookup, if_neg h.1, ih (by simpa [dkeys] using h.2)]

theorem dlookup_append {V : Type} (d1 d2 : Dict V) (k : String) :
    dlookup (d1 ++ d2) k =
      match dlookup d1 k with
      | some v => some v
      | none => dlookup d2 k := by
  induction d1 with
  | nil => rfl
  | cons kv rest ih =>
    obtain ⟨k', v⟩ := kv
    by_cases h : k = k' <;> simp [dlookup, h, ih]

theorem dlookup_replace {V : Type} (d : Dict V) (k k' : String) (v : V) :
    dlookup (d.map (fun kv => if kv.1 = k then (k, v) else kv)) k' =
      if k' = k then (if k ∈ dkeys d then some v else none) else dlookup d k' := by
  induction d with
  | nil => simp [dlookup, dkeys]
  | cons kv rest ih =>
    obtain ⟨a, b⟩ := kv
    simp only [List.map_cons]
    by_cases hak : a = k
    · rw [show (if ((a, b) : String × V).1 = k then (k, v) else (a, b)) = (k, v) from
        if_pos hak]
      by_cases hk : k' = k
      · have hmem : k ∈ dkeys ((a, b) :: rest) := by
          simp only [dkeys, List.map_cons, List.mem_cons]
          exact Or.inl hak.symm
        simp [dlookup, hk, hmem]
      · have hka : ¬ k' = a := fun h => hk (h.trans hak)
        simp [dlookup, hk, hka, ih]
    · rw [show (if ((a, b) : String × V).1 = k then (k, v) else (a, b)) = (a, b) from
        if_neg hak]
      by_cases hk : k' = a
      · have hkk : ¬ k' = k := by rw [hk]; exact hak
        simp only [dlookup, if_pos hk, if_neg hkk]
      · simp only [dlookup, if_neg hk, ih]
        by_cases hkk : k' = k
        · subst hkk
          have hcond : (k' ∈ dkeys ((a, b) :: rest)) ↔ (k' ∈ dkeys rest) := by
            simp [dkeys, List.mem_cons, hk]
          simp only [hcond]
        · simp [hkk]

theorem dlookup_dictInsert {V : Type} (d : Dict V) (k k' : String) (v : V) :
    dlookup (dictInsert d k v) k' = if k' = k then some v else dlookup d k' := by
  unfold dictInsert
  by_cases hmem : k ∈ dkeys d
  · rw [if_pos hmem, dlookup_replace, if_pos hmem]
  · rw [if_neg hmem, dlookup_append]
    by_cases hkk : k' = k
    · subst hkk
      rw [dlookup_eq_none d k' hmem]
      simp [dlookup]
    · cases h : dlookup d k' <;> simp [dlookup, hkk, h]

theorem dkeys_dictInsert {V : Type} (d : Dict V) (k : String) (v : V) :
    dkeys (dictInsert d k v) = if k ∈ dkeys d then dkeys d else dkeys d ++ [k] := by
  unfold dictInsert
  by_cases hmem : k ∈ dkeys d
  · rw [if_pos hmem, if_pos hmem]
    simp only [dkeys, List.map_map]
    apply List.map_congr_left
    intro kv _
    by_cases h : kv.1 = k <;> simp [h, Function.comp]
  · rw [if_neg hmem, if_neg hmem]
    simp [dkeys]

theorem mem_dkeys_dictInsert {V : Type} (d : Dict V) (k k' : String) (v : V) :
    k' ∈ dkeys (dictInsert d k v) ↔ k' = k ∨ k' ∈ dkeys d := by
  rw [dkeys_dictInsert]
  by_cases hmem : k ∈ dkeys d
  · simp only [if_pos hmem]
    constructor
    · exact Or.inr
    · rintro (rfl | h)
      · exact hmem
      · exact h
  · simp only [if_neg hmem, List.mem_append, List.mem_singleton]
    tauto

/-! ## Inner-loop lemmas -/

theorem processKeys_isSome {V : Type} (f : Container V) (d : Dict V) (ks : List String) :
    (processKeys f d ks).isSome ↔ ∀ k ∈ ks, (f.get_tensor k).isSome := by
  induction ks generalizing d with
  | nil => simp [processKeys]
  | cons k ks ih =>
    cases h : f.get_tensor k with
    | none => simp [processKeys, h]
    | some v =>
      simp only [processKeys, h, ih, List.mem_cons]
      constructor
      · intro hall k' hk'
        rcases hk' with rfl | hk'
        · simp [h]
        · exact hall k' hk'
      · intro hall k' hk'
        exact hall k' (Or.inr hk')

theorem processKeys_lookup {V : Type} (f : Container V) (d d' : Dict V) (ks : List String)
    (h : processKeys f d ks = some d') (k : String) :
    dlookup d' k = if k ∈ ks then f.get_tensor k else dlookup d k := by
  induction ks generalizing d with
  | nil =>
    simp only [processKeys, Option.some.injEq] at h
    subst h
    simp
  | cons k0 ks ih =>
    cases hg : f.get_tensor k0 with
    | none => simp [processKeys, hg] at h
    | some v =>
      simp only [processKeys, hg] at h
      have := ih (dictInsert d k0 v) h
      rw [this, dlookup_dictInsert]
      by_cases hks : k ∈ ks
      · simp [hks, List.mem_cons]
      · by_cases hk0 : k = k0
        · subst hk0
          simp [hks, hg]
        · simp [hks, hk0, List.mem_cons]

theorem processKeys_keys {V : Type} (f : Container V) (d d' : Dict V) (ks : List String)
    (h : processKeys f d ks = some d') (k : String) :
    k ∈ dkeys d' ↔ k ∈ dkeys d ∨ k ∈ ks := by
  induction ks generalizing d with
  | nil =>
    simp only [processKeys, Option.some.injEq] at h
    subst h
    simp
  | cons k0 ks ih =>
    cases hg : f.get_tensor k0 with
    | none => simp [processKeys, hg] at h
    | some v =>
      simp only [processKeys, hg] at h
      rw [ih (dictInsert d k0 v) h, mem_dkeys_dictInsert]
      simp only [List.mem_cons]
      tauto

/-! ## Outer-loop lemmas -/

theorem processPath_isSome {V : Type} (env : Env V) (d : Dict V) (p : String) :
    (processPath env d p).isSome ↔ pathOk env p := by
  unfold processPath pathOk
  cases h : env p with
  | none => simp
  | some f => simp [processKeys_isSome]

theorem collectFrom_isSome {V : Type} (env : Env V) (d : Dict V) (ps : List String) :
    (collectFrom env d ps).isSome ↔ ∀ p ∈ ps, pathOk env p := by
  induction ps generalizing d with
  | nil => simp [collectFrom]
  | cons p ps ih =>
    cases h : processPath env d p with
    | none =>
      have : ¬ pathOk env p := by
        rw [← processPath_isSome env d p, h]
        simp
      simp [collectFrom, h, this]
    | some d1 =>
      have hok : pathOk env p := by
        rw [← processPath_isSome env d p, h]
        simp
      simp only [collectFrom, h, ih, List.mem_cons]
      constructor
      · intro hall q hq
        rcases hq with rfl | hq
        · exact hok
        · exact hall q hq
      · intro hall q hq
        exact hall q (Or.inr hq)

theorem collectFrom_lookup {V : Type} (env : Env V) (d d' : Dict V) (ps : List String)
    (h : collectFrom env d ps = some d') (k : String) :
    dlookup d' k =
      match lastFound env ps k with
      | some v => some v
      | none => dlookup d k := by
  induction ps generalizing d with
  | nil =>
    simp only [collectFrom, Option.some.injEq] at h
    subst h
    simp [lastFound]
  | cons p ps ih =>
    cases hp : processPath env d p with
    | none => simp [collectFrom, hp] at h
    | some d1 =>
      simp only [collectFrom, hp] at h
      rw [ih d1 h]
      cases hlf : lastFound env ps k with
      | some v => simp [lastFound, hlf]
      | none =>
        simp only [lastFound, hlf]
        cases he : env p with
        | none =>
          simp only [processPath, he] at hp
          exact Option.noConfusion hp
        | some f =>
          simp only [processPath, he] at hp
          rw [processKeys_lookup f d d1 f.keys hp k]
          by_cases hk : k ∈ f.keys
          · have hsome : (f.get_tensor k).isSome := by
              have := (processKeys_isSome f d f.keys).mp (by simp [hp])
              exact this k hk
            cases hg : f.get_tensor k with
            | none => rw [hg] at hsome; simp at hsome
            | some v => simp [hk, hg]
          · simp [hk]

theorem collectFrom_keys {V : Type} (env : Env V) (d d' : Dict V) (ps : List String)
    (h : collectFrom env d ps = some d') (k : String) :
    k ∈ dkeys d' ↔ k ∈ dkeys d ∨ ∃ p ∈ ps, ∃ f, env p = some f ∧ k ∈ f.keys := by
  induction ps generalizing d with
  | nil =>
    simp only [collectFrom, Option.some.injEq] at h
    subst h
    simp
  | cons p ps ih =>
    cases hp : processPath env d p with
    | none => simp [collectFrom, hp] at h
    | some d1 =>
      simp only [collectFrom, hp] at h
      rw [ih d1 h]
      cases he : env p with
      | none =>
        simp only [processPath, he] at hp
        exact Option.noConfusion hp
      | some f =>
        simp only [processPath, he] at hp
        rw [processKeys_keys f d d1 f.keys hp k]
        simp only [List.mem_cons]
        constructor
        · rintro ((hd | hf) | ⟨q, hq, g, hg, hkg⟩)
          · exact Or.inl hd
          · exact Or.inr ⟨p, Or.inl rfl, f, he, hf⟩
          · exact Or.inr ⟨q, Or.inr hq, g, hg, hkg⟩
        · rintro (hd | ⟨q, (rfl | hq), g, hg, hkg⟩)
          · exact Or.inl (Or.inl hd)
          · rw [he] at hg
            cases hg
            exact Or.inl (Or.inr hkg)
          · exact Or.inr ⟨q, hq, g, hg, hkg⟩

theorem collectFrom_append {V : Type} (env : Env V) (d : Dict V) (ps1 ps2 : List String) :
    collectFrom env d (ps1 ++ ps2) =
      match collectFrom env d ps1 with
      | none => none
      | some d1 => collectFrom env d1 ps2 := by
  induction ps1 generalizing d with
  | nil => simp [collectFrom]
  | cons p ps1 ih =>
    simp only [List.cons_append, collectFrom]
    cases hp : processPath env d p with
    | none => rfl
    | some d1 => exact ih d1

theorem lastFound_append {V : Type} (env : Env V) (ps1 ps2 : List String) (k : String) :
    lastFound env (ps1 ++ ps2) k =
      match lastFound env ps2 k with
      | some v => some v
      | none => lastFound env ps1 k := by
  induction ps1 with
  | nil =>
    simp only [List.nil_append]
    cases h : lastFound env ps2 k <;> simp [lastFound, h]
  | cons p ps1 ih =>
    simp only [List.cons_append]
    simp only [lastFound]
    rw [ih]
    cases h : lastFound env ps2 k <;> cases h1 : lastFound env ps1 k <;>
      simp [lastFound, h, h1]

/-! ## Agreement between the trace semantics and the pure semantics -/

theorem processKeysTr_snd {V : Type} (f : Container V) (p : String) (d : Dict V)
    (ks : List String) :
    (processKeysTr f p d ks).2 = processKeys f d ks := by
  induction ks generalizing d with
  | nil => rfl
  | cons k ks ih =>
    simp only [processKeysTr, processKeys]
    cases f.get_tensor k with
    | none => rfl
    | some v => exact ih (dictInsert d k v)

theorem processPathTr_snd {V : Type} (env : Env V) (d : Dict V) (p : String) :
    (processPathTr env d p).2 = processPath env d p := by
  simp only [processPathTr, processPath]
  cases env p with
  | none => rfl
  | some f => exact processKeysTr_snd f p d f.keys

theorem collectTr_snd {V : Type} (env : Env V) (d : Dict V) (ps : List String) :
    (collectTr env d ps).2 = collectFrom env d ps := by
  induction ps generalizing d with
  | nil => rfl
  | cons p ps ih =>
    simp only [collectTr, collectFrom, ← processPathTr_snd env d p]
    cases (processPathTr env d p).2 with
    | none => rfl
    | some d1 => exact ih d1

/-! ## Traces contain no print events -/

theorem processKeysTr_no_print {V : Type} (f : Container V) (p : String) (d : Dict V)
    (ks : List String) (x : Dict V) :
    Event.print x ∉ (processKeysTr f p d ks).1 := by
  induction ks generalizing d with
  | nil => simp [processKeysTr]
  | cons k ks ih =>
    simp only [processKeysTr]
    cases f.get_tensor k with
    | none => simp
    | some v =>
      simp only [List.mem_cons]
      rintro (h | h)
      · exact Event.noConfusion h
      · exact ih (dictInsert d k v) h

theorem processPathTr_no_print {V : Type} (env : Env V) (d : Dict V) (p : String)
    (x : Dict V) :
    Event.print x ∉ (processPathTr env d p).1 := by
  simp only [processPathTr]
  cases env p with
  | none => simp
  | some f =>
    intro h
    rcases List.mem_append.mp h with h1 | h1
    · rcases List.mem_cons.mp h1 with h2 | h2
      · exact Event.noConfusion h2
      · exact processKeysTr_no_print f p d f.keys x h2
    · rcases List.mem_cons.mp h1 with h2 | h2
      · exact Event.noConfusion h2
      · exact absurd h2 (List.not_mem_nil _)

theorem collectTr_no_print {V : Type} (env : Env V) (d : Dict V) (ps : List String)
    (x : Dict V) :
    Event.print x ∉ (collectTr env d ps).1 := by
  induction ps generalizing d with
  | nil => simp [collectTr]
  | cons p ps ih =>
    simp only [collectTr]
    cases (processPathTr env d p).2 with
    | none => exact processPathTr_no_print env d p x
    | some d1 =>
      simp only [List.mem_append]
      rintro (h | h)
      · exact processPathTr_no_print env d p x h
      · exact ih d1 h

/-! ## Scoped-resource lemmas -/

theorem scopedOk_processKeysTr {V : Type} (f : Container V) (p : String) (d : Dict V)
    (ks : List String) (rest : List (Event V)) :
    scopedOk (some p) ((processKeysTr f p d ks).1 ++ Event.release p :: rest) =
      scopedOk (none : Option String) rest := by
  induction ks generalizing d with
  | nil => simp [processKeysTr, scopedOk]
  | cons k ks ih =>
    simp only [processKeysTr]
    cases f.get_tensor k with
    | none => simp [scopedOk]
    | some v =>
      simp only [List.cons_append, scopedOk, beq_self_eq_true, Bool.true_and]
      exact ih (dictInsert d k v)

theorem scopedOk_processPathTr {V : Type} (env : Env V) (d : Dict V) (p : String)
    (rest : List (Event V)) :
    scopedOk (none : Option String) ((processPathTr env d p).1 ++ rest) =
      scopedOk (none : Option String) rest := by
  simp only [processPathTr]
  cases env p with
  | none => simp
  | some f =>
    rw [List.append_assoc, List.singleton_append, List.cons_append]
    simp only [scopedOk]
    exact scopedOk_processKeysTr f p d f.keys rest

theorem scopedOk_collectTr {V : Type} (env : Env V) (d : Dict V) (ps : List String)
    (rest : List (Event V)) :
    scopedOk (none : Option String) ((collectTr env d ps).1 ++ rest) =
      scopedOk (none : Option String) rest := by
  induction ps generalizing d with
  | nil => simp [collectTr]
  | cons p ps ih =>
    simp only [collectTr]
    cases (processPathTr env d p).2 with
    | none => exact scopedOk_processPathTr env d p rest
    | some d1 =>
      rw [List.append_assoc]
      rw [scopedOk_processPathTr env d p ((collectTr env d1 ps).1 ++ rest)]
      exact ih d1

/-! ## Shared helper lemmas about the whole run -/

theorem option_match_id {V : Type} (o : Option V) :
    (match o with | some v => some v | none => none) = o := by
  cases o <;> rfl

theorem collect_lookup_eq_lastFound {V : Type} (env : Env V) (ps : List String) (d : Dict V)
    (h : collect env ps = some d) (k : String) :
    dlookup d k = lastFound env ps k := by
  have hl := collectFrom_lookup env [] d ps h k
  rw [hl, show dlookup ([] : Dict V) k = none from rfl]
  exact option_match_id (lastFound env ps k)

theorem collect_keys_mem {V : Type} (env : Env V) (ps : List String) (d : Dict V)
    (h : collect env ps = some d) (k : String) :
    k ∈ dkeys d ↔ ∃ p ∈ ps, ∃ f, env p = some f ∧ k ∈ f.keys := by
  have hk := collectFrom_keys env [] d ps h k
  simpa [dkeys] using hk

theorem collect_pathOk {V : Type} (env : Env V) (ps : List String) (d : Dict V)
    (h : collect env ps = some d) (p : String) (hp : p ∈ ps) :
    pathOk env p := by
  have hs : (collectFrom env [] ps).isSome := by
    rw [show collectFrom env [] ps = collect env ps from rfl, h]
    rfl
  exact (collectFrom_isSome env [] ps).mp hs p hp

theorem collect_get_isSome {V : Type} (env : Env V) (ps : List String) (d : Dict V)
    (p : String) (f : Container V) (hp : p ∈ ps) (hf : env p = some f)
    (h : collect env ps = some d) (k : String) (hk : k ∈ f.keys) :
    (f.get_tensor k).isSome := by
  obtain ⟨g, hg, hall⟩ := collect_pathOk env ps d h p hp
  rw [hf] at hg
  cases hg
  exact hall k hk

theorem lastFound_eq_none {V : Type} (env : Env V) (ps : List String) (k : String)
    (h : ∀ q ∈ ps, ∀ g, env q = some g → k ∉ g.keys) :
    lastFound env ps k = none := by
  induction ps with
  | nil => rfl
  | cons q ps ih =>
    have hih : lastFound env ps k = none := by
      apply ih
      intro q' hq' g hg
      exact h q' (List.mem_cons_of_mem q hq') g hg
    simp only [lastFound, hih]
    cases hq : env q with
    | none => rfl
    | some g =>
      have := h q (List.mem_cons_self q ps) g hq
      simp [this]

theorem run_eq_trace_of_fail {V : Type} (env : Env V) (ps : List String)
    (h : collect env ps = none) : run env ps = (collectTr env [] ps).1 := by
  simp only [run]
  rw [show (collectTr env [] ps).2 = none from (collectTr_snd env [] ps).trans h]

/-! ## Claim theorems -/

/-- C1: for every sequence of input paths, if the same tensor name appears
in more than one path, the final accumulated mapping binds that name to the
value retrieved from the path processed last: whenever `p` is the last path
of the list whose container contains `k` (no later path's container has
`k`), a successful run binds `k` to `p`'s retrieval result. -/
theorem collect_last_write_wins {V : Type} (env : Env V) (ps1 ps2 : List String)
    (p k : String) (f : Container V) (d : Dict V)
    (hf : env p = some f) (hk : k ∈ f.keys)
    (hlater : ∀ q ∈ ps2, ∀ g, env q = some g → k ∉ g.keys)
    (h : collect env (ps1 ++ p :: ps2) = some d) :
    dlookup d k = f.get_tensor k := by
  rw [collect_lookup_eq_lastFound env (ps1 ++ p :: ps2) d h k]
  rw [lastFound_append env ps1 (p :: ps2) k]
  have htail : lastFound env ps2 k = none := lastFound_eq_none env ps2 k hlater
  have hcons : lastFound env (p :: ps2) k = f.get_tensor k := by
    simp [lastFound, htail, hf, hk]
  rw [hcons]
  have hsome : (f.get_tensor k).isSome :=
    collect_get_isSome env (ps1 ++ p :: ps2) d p f
      (by simp) hf h k hk
  cases hg : f.get_tensor k with
  | none => rw [hg] at hsome; simp at hsome
  | some v => simp

/-- C2: if some supplied path fails (it cannot be opened as a valid
container, or retrieving one of its enumerated names fails), the run fails:
`collect` propagates the failure (returns `none`) and no mapping is ever
printed to standard output. -/
theorem collect_failure_propagates {V : Type} (env : Env V) (ps : List String)
    (p : String) (hp : p ∈ ps) (hfail : ¬ pathOk env p) :
    collect env ps = none ∧ ∀ d, Event.print d ∉ run env ps := by
  have hnone : collect env ps = none := by
    cases h : collect env ps with
    | none => rfl
    | some d => exact absurd (collect_pathOk env ps d h p hp) hfail
  refine ⟨hnone, fun d hd => ?_⟩
  rw [run_eq_trace_of_fail env ps hnone] at hd
  exact collectTr_no_print env [] ps d hd

/-- C3: for two containers with disjoint name sets, a successful run over
both paths yields a mapping whose key set is the union of the two name
sets, and each key is bound to exactly the value the corresponding
container's retrieval returns for it. -/
theorem collect_disjoint_union {V : Type} (env : Env V) (p1 p2 : String)
    (f1 f2 : Container V) (d : Dict V)
    (h1 : env p1 = some f1) (h2 : env p2 = some f2)
    (hdisj : ∀ k, k ∈ f1.keys → k ∉ f2.keys)
    (h : collect env [p1, p2] = some d) :
    (∀ k, k ∈ dkeys d ↔ (k ∈ f1.keys ∨ k ∈ f2.keys)) ∧
    (∀ k ∈ f1.keys, dlookup d k = f1.get_tensor k) ∧
    (∀ k ∈ f2.keys, dlookup d k = f2.get_tensor k) := by
  refine ⟨fun k => ?_, fun k hk => ?_, fun k hk => ?_⟩
  · rw [collect_keys_mem env [p1, p2] d h k]
    constructor
    · rintro ⟨q, hq, g, hg, hkg⟩
      rcases List.mem_cons.mp hq with rfl | hq
      · rw [h1] at hg
        cases hg
        exact Or.inl hkg
      · rcases List.mem_cons.mp hq with rfl | hq
        · rw [h2] at hg
          cases hg
          exact Or.inr hkg
        · exact absurd hq (List.not_mem_nil q)
    · rintro (hk | hk)
      · exact ⟨p1, by simp, f1, h1, hk⟩
      · exact ⟨p2, by simp, f2, h2, hk⟩
  · rw [collect_lookup_eq_lastFound env [p1, p2] d h k]
    have hnot2 : k ∉ f2.keys := hdisj k hk
    have hsome : (f1.get_tensor k).isSome :=
      collect_get_isSome env [p1, p2] d p1 f1 (by simp) h1 h k hk
    cases hg : f1.get_tensor k with
    | none => rw [hg] at hsome; simp at hsome
    | some v => simp [lastFound, h1, h2, hk, hnot2, hg]
  · rw [collect_lookup_eq_lastFound env [p1, p2] d h k]
    have hsome : (f2.get_tensor k).isSome :=
      collect_get_isSome env [p1, p2] d p2 f2 (by simp) h2 h k hk
    cases hg : f2.get_tensor k with
    | none => rw [hg] at hsome; simp at hsome
    | some v => simp [lastFound, h2, hk, hg]

/-- C4: for a single container whose name set is exactly `{"a", "b"}`, a
successful run over that one path yields a mapping with exactly the keys
`"a"` and `"b"`, each bound to the value the container's retrieval returns
for it. -/
theorem collect_single_container {V : Type} (env : Env V) (p : String)
    (f : Container V) (d : Dict V) (hf : env p = some f)
    (hkeys : ∀ k, k ∈ f.keys ↔ (k = "a" ∨ k = "b"))
    (h : collect env [p] = some d) :
    (∀ k, k ∈ dkeys d ↔ (k = "a" ∨ k = "b")) ∧
    (∀ k ∈ f.keys, dlookup d k = f.get_tensor k) := by
  constructor
  · intro k
    rw [collect_keys_mem env [p] d h k, ← hkeys k]
    constructor
    · rintro ⟨q, hq, g, hg, hkg⟩
      rcases List.mem_cons.mp hq with rfl | hq
      · rw [hf] at hg
        cases hg
        exact hkg
      · exact absurd hq (List.not_mem_nil q)
    · intro hk
      exact ⟨p, by simp, f, hf, hk⟩
  · intro k hk
    rw [collect_lookup_eq_lastFound env [p] d h k]
    have hsome : (f.get_tensor k).isSome :=
      collect_get_isSome env [p] d p f (by simp) hf h k hk
    cases hg : f.get_tensor k with
    | none => rw [hg] at hsome; simp at hsome
    | some v => simp [lastFound, hf, hk, hg]

/-- C5: for the empty input path list the accumulation returns the empty
mapping (this is not an error), and the program prints exactly the
empty-mapping representation. -/
theorem collect_empty_paths {V : Type} (env : Env V) :
    collect env [] = some ([] : Dict V) ∧ run env [] = [Event.print ([] : Dict V)] :=
  ⟨rfl, rfl⟩

theorem processKeys_eq_foldlM {V : Type} (f : Container V) (d : Dict V) (ks : List String) :
    processKeys f d ks =
      ks.foldlM (fun d k => (f.get_tensor k).map (fun v => dictInsert d k v)) d := by
  induction ks generalizing d with
  | nil => rfl
  | cons k ks ih =>
    rw [List.foldlM_cons]
    cases hg : f.get_tensor k with
    | none => simp [processKeys, hg]
    | some v => simp [processKeys, hg, ih]

/-- C6: execution is a strictly sequential left fold: the accumulation over
the path list equals the left monadic fold of the per-path merge, in the
order supplied, and within each path the names are folded over in exactly
the order the container enumerates them. -/
theorem collect_eq_foldl {V : Type} (env : Env V) (paths : List String) :
    collect env paths = paths.foldlM (fun d p => processPath env d p) ([] : Dict V) ∧
    ∀ (f : Container V) (d : Dict V),
      processKeys f d f.keys =
        f.keys.foldlM (fun d k => (f.get_tensor k).map (fun v => dictInsert d k v)) d := by
  constructor
  · show collectFrom env [] paths = _
    generalize ([] : Dict V) = d
    induction paths generalizing d with
    | nil => rfl
    | cons p ps ih =>
      rw [List.foldlM_cons]
      cases hp : processPath env d p with
      | none => simp [collectFrom, hp]
      | some d1 => simp [collectFrom, hp, ih]
  · intro f d
    exact processKeys_eq_foldlM f d f.keys

/-- C7: scoped-resource semantics — in every run's trace, the container
handle of each path is acquired only after all earlier handles have been
released, every retrieval happens under its own path's handle, and every
acquired handle is released before the next path is opened (and before the
run ends), even when a retrieval fails partway through the loop. -/
theorem run_scoped_resources {V : Type} (env : Env V) (paths : List String) :
    scopedOk (none : Option String) (run env paths) = true := by
  simp only [run]
  cases h : (collectTr env [] paths).2 with
  | none =>
    have hsc := scopedOk_collectTr env [] paths ([] : List (Event V))
    rw [List.append_nil] at hsc
    rw [hsc]
    rfl
  | some d =>
    have hsc := scopedOk_collectTr env [] paths [Event.print d]
    rw [hsc]
    rfl

/-- Two environments giving, for every path, either failure in both or
containers with the same name set (in possibly different enumeration
orders) and the same retrieval function. -/
def EnvEquiv {V : Type} (env1 env2 : Env V) : Prop :=
  ∀ p, (env1 p = none ∧ env2 p = none) ∨
    ∃ f1 f2, env1 p = some f1 ∧ env2 p = some f2 ∧
      (∀ k, k ∈ f1.keys ↔ k ∈ f2.keys) ∧ f1.get_tensor = f2.get_tensor

theorem pathOk_congr {V : Type} (env1 env2 : Env V) (h : EnvEquiv env1 env2) (p : String) :
    pathOk env1 p ↔ pathOk env2 p := by
  rcases h p with ⟨ha, hb⟩ | ⟨f1, f2, ha, hb, hkeys, hget⟩
  · constructor
    · rintro ⟨f, hf, -⟩
      rw [ha] at hf
      exact Option.noConfusion hf
    · rintro ⟨f, hf, -⟩
      rw [hb] at hf
      exact Option.noConfusion hf
  · constructor
    · rintro ⟨f, hf, hall⟩
      rw [ha] at hf
      cases hf
      refine ⟨f2, hb, fun k hk => ?_⟩
      rw [← hget]
      exact hall k ((hkeys k).mpr hk)
    · rintro ⟨f, hf, hall⟩
      rw [hb] at hf
      cases hf
      refine ⟨f1, ha, fun k hk => ?_⟩
      rw [hget]
      exact hall k ((hkeys k).mp hk)

theorem lastFound_congr {V : Type} (env1 env2 : Env V) (h : EnvEquiv env1 env2)
    (ps : List String) (k : String) :
    lastFound env1 ps k = lastFound env2 ps k := by
  induction ps with
  | nil => rfl
  | cons p ps ih =>
    simp only [lastFound, ih]
    cases hlf : lastFound env2 ps k with
    | some v => rfl
    | none =>
      rcases h p with ⟨ha, hb⟩ | ⟨f1, f2, ha, hb, hkeys, hget⟩
      · simp only [ha, hb]
      · simp only [ha, hb]
        by_cases hk : k ∈ f1.keys
        · rw [if_pos hk, if_pos ((hkeys k).mp hk), hget]
        · rw [if_neg hk, if_neg (fun hk2 => hk ((hkeys k).mpr hk2))]

/-- C8: determinism as a two-run property — two runs on the same path list
against environments with the same container contents (same name sets and
same retrieval results, regardless of within-container enumeration order)
either both fail, or both succeed with mappings holding identical key/value
pairs. -/
theorem collect_deterministic {V : Type} (env1 env2 : Env V) (ps : List String)
    (h : EnvEquiv env1 env2) :
    (collect env1 ps = none ↔ collect env2 ps = none) ∧
    (∀ d1 d2, collect env1 ps = some d1 → collect env2 ps = some d2 →
      ∀ k, dlookup d1 k = dlookup d2 k) := by
  constructor
  · constructor
    · intro hn
      cases hc : collect env2 ps with
      | none => rfl
      | some d =>
        exfalso
        have hok1 : ∀ p ∈ ps, pathOk env1 p := fun p hp =>
          (pathOk_congr env1 env2 h p).mpr (collect_pathOk env2 ps d hc p hp)
        have hs : (collect env1 ps).isSome := (collectFrom_isSome env1 [] ps).mpr hok1
        rw [hn] at hs
        simp at hs
    · intro hn
      cases hc : collect env1 ps with
      | none => rfl
      | some d =>
        exfalso
        have hok2 : ∀ p ∈ ps, pathOk env2 p := fun p hp =>
          (pathOk_congr env1 env2 h p).mp (collect_pathOk env1 ps d hc p hp)
        have hs : (collect env2 ps).isSome := (collectFrom_isSome env2 [] ps).mpr hok2
        rw [hn] at hs
        simp at hs
  · intro d1 d2 hd1 hd2 k
    rw [collect_lookup_eq_lastFound env1 ps d1 hd1 k,
        collect_lookup_eq_lastFound env2 ps d2 hd2 k]
    exact lastFound_congr env1 env2 h ps k

/-- C9: lifecycle invariant — the mapping starts empty and its key set
grows monotonically: splitting the path list anywhere, the mapping after
the first part has exactly the names enumerated so far as keys, every such
key is still a key at the end, and the final key set is the union of all
enumerated names. -/
theorem collect_keys_invariant {V : Type} (env : Env V) (ps1 ps2 : List String)
    (dmid d' : Dict V)
    (h1 : collectFrom env [] ps1 = some dmid)
    (h2 : collectFrom env dmid ps2 = some d') :
    collect env (ps1 ++ ps2) = some d' ∧
    (∀ k, k ∈ dkeys dmid ↔ ∃ p ∈ ps1, ∃ f, env p = some f ∧ k ∈ f.keys) ∧
    (∀ k, k ∈ dkeys dmid → k ∈ dkeys d') ∧
    (∀ k, k ∈ dkeys d' ↔ ∃ p ∈ ps1 ++ ps2, ∃ f, env p = some f ∧ k ∈ f.keys) := by
  have happ : collect env (ps1 ++ ps2) = some d' := by
    show collectFrom env [] (ps1 ++ ps2) = some d'
    rw [collectFrom_append env [] ps1 ps2, h1]
    exact h2
  refine ⟨happ, fun k => ?_, fun k hk => ?_, fun k => ?_⟩
  · exact collect_keys_mem env ps1 dmid h1 k
  · exact (collectFrom_keys env dmid d' ps2 h2 k).mpr (Or.inl hk)
  · exact collect_keys_mem env (ps1 ++ ps2) d' happ k

/-- C10: homomorphism over concatenation — when both path lists succeed,
the accumulation over their concatenation succeeds and equals the
right-biased union of the two separate accumulations: keys present in the
second result take its value, all other keys keep the first result's
value. -/
theorem collect_append_union {V : Type} (env : Env V) (ps1 ps2 : List String)
    (d1 d2 : Dict V) (h1 : collect env ps1 = some d1) (h2 : collect env ps2 = some d2) :
    ∃ d, collect env (ps1 ++ ps2) = some d ∧
      ∀ k, dlookup d k =
        match dlookup d2 k with
        | some v => some v
        | none => dlookup d1 k := by
  have hok2 : ∀ p ∈ ps2, pathOk env p := fun p hp => collect_pathOk env ps2 d2 h2 p hp
  have hs : (collectFrom env d1 ps2).isSome := (collectFrom_isSome env d1 ps2).mpr hok2
  obtain ⟨d, hd⟩ := Option.isSome_iff_exists.mp hs
  have happ : collect env (ps1 ++ ps2) = some d := by
    show collectFrom env [] (ps1 ++ ps2) = some d
    rw [collectFrom_append env [] ps1 ps2]
    rw [show collectFrom env [] ps1 = some d1 from h1]
    exact hd
  refine ⟨d, happ, fun k => ?_⟩
  rw [collect_lookup_eq_lastFound env (ps1 ++ ps2) d happ k,
      lastFound_append env ps1 ps2 k,
      ← collect_lookup_eq_lastFound env ps2 d2 h2 k,
      ← collect_lookup_eq_lastFound env ps1 d1 h1 k]

/-! ## Concrete witness data

Small concrete environments over `Nat`-valued tensors, used to exercise the
claim theorems on explicit inputs. -/

/-- Container with names x (value 1) and a (value 10). -/
def cW1 : Container Nat :=
  ⟨["x", "a"], fun k => if k = "x" then some 1 else if k = "a" then some 10 else none⟩

/-- Container with names x (value 2) and b (value 20). -/
def cW2 : Container Nat :=
  ⟨["x", "b"], fun k => if k = "x" then some 2 else if k = "b" then some 20 else none⟩

/-- Environment with two containers that both bind the name x. -/
def envW : Env Nat :=
  fun p => if p = "f1" then some cW1 else if p = "f2" then some cW2 else none

/-- Container with the single name a (value 10). -/
def cW3 : Container Nat := ⟨["a"], fun k => if k = "a" then some 10 else none⟩

/-- Container with the single name b (value 20). -/
def cW4 : Container Nat := ⟨["b"], fun k => if k = "b" then some 20 else none⟩

/-- Environment with two containers with disjoint name sets. -/
def envW2 : Env Nat :=
  fun p => if p = "g1" then some cW3 else if p = "g2" then some cW4 else none

/-- Container with names a (value 1) and b (value 2). -/
def cW5 : Container Nat :=
  ⟨["a", "b"], fun k => if k = "a" then some 1 else if k = "b" then some 2 else none⟩

/-- Environment with a single container. -/
def envW3 : Env Nat := fun p => if p = "h1" then some cW5 else none

/-- Environment where every open fails. -/
def envBad : Env Nat := fun _ => none

/-- Retrieval function shared by the two determinism-witness containers. -/
def gW : String → Option Nat :=
  fun k => if k = "x" then some 1 else if k = "y" then some 2 else none

/-- Environment enumerating the container's names as x then y. -/
def envA : Env Nat := fun p => if p = "f" then some ⟨["x", "y"], gW⟩ else none

/-- Environment with the same contents but enumerating y then x. -/
def envB : Env Nat := fun p => if p = "f" then some ⟨["y", "x"], gW⟩ else none

/-! ## Witnesses -/

/-- Witness for C1: two containers both binding x; the run succeeds and the
final mapping binds x to the second container's value. -/
theorem collect_last_write_wins_witness :
    collect envW ["f1", "f2"] = some [("x", 2), ("a", 10), ("b", 20)] ∧
    dlookup [("x", 2), ("a", 10), ("b", 20)] "x" = cW2.get_tensor "x" := by
  have hc : collect envW ["f1", "f2"] = some [("x", 2), ("a", 10), ("b", 20)] := by decide
  refine ⟨hc, ?_⟩
  exact collect_last_write_wins envW ["f1"] [] "f2" "x" cW2
    [("x", 2), ("a", 10), ("b", 20)] rfl (by decide)
    (fun q hq => absurd hq (List.not_mem_nil q)) hc

/-- Witness for C2: a single unopenable path makes the run fail with no
printed mapping. -/
theorem collect_failure_propagates_witness :
    collect envBad ["bad"] = none ∧ Event.print ([] : Dict Nat) ∉ run envBad ["bad"] := by
  have h := collect_failure_propagates envBad ["bad"] "bad" (by simp)
    (fun hok => by
      obtain ⟨f, hf, -⟩ := hok
      exact Option.noConfusion hf)
  exact ⟨h.1, h.2 []⟩

/-- Witness for C3: two disjoint containers; the final mapping is their
union with values preserved. -/
theorem collect_disjoint_union_witness :
    collect envW2 ["g1", "g2"] = some [("a", 10), ("b", 20)] ∧
    dlookup [("a", 10), ("b", 20)] "a" = cW3.get_tensor "a" ∧
    dlookup [("a", 10), ("b", 20)] "b" = cW4.get_tensor "b" ∧
    "a" ∈ dkeys [("a", 10), ("b", 20)] ∧ "b" ∈ dkeys [("a", 10), ("b", 20)] := by
  have hc : collect envW2 ["g1", "g2"] = some [("a", 10), ("b", 20)] := by decide
  have hdisj : ∀ k, k ∈ cW3.keys → k ∉ cW4.keys := fun k hk hk2 => by
    have h3 : k = "a" := by simpa [cW3] using hk
    have h4 : k = "b" := by simpa [cW4] using hk2
    rw [h3] at h4
    exact absurd h4 (by decide)
  have h := collect_disjoint_union envW2 "g1" "g2" cW3 cW4
    [("a", 10), ("b", 20)] rfl rfl hdisj hc
  exact ⟨hc, h.2.1 "a" (by decide), h.2.2 "b" (by decide),
    (h.1 "a").mpr (Or.inl (by decide)), (h.1 "b").mpr (Or.inr (by decide))⟩

/-- Witness for C4: one container with names a and b; the final mapping has
exactly those keys bound to the container's values. -/
theorem collect_single_container_witness :
    collect envW3 ["h1"] = some [("a", 1), ("b", 2)] ∧
    "a" ∈ dkeys [("a", 1), ("b", 2)] ∧ "b" ∈ dkeys [("a", 1), ("b", 2)] ∧
    dlookup [("a", 1), ("b", 2)] "a" = cW5.get_tensor "a" := by
  have hc : collect envW3 ["h1"] = some [("a", 1), ("b", 2)] := by decide
  have hkeys : ∀ k, k ∈ cW5.keys ↔ (k = "a" ∨ k = "b") := fun k => by simp [cW5]
  have h := collect_single_container envW3 "h1" cW5 [("a", 1), ("b", 2)] rfl hkeys hc
  exact ⟨hc, (h.1 "a").mpr (Or.inl rfl), (h.1 "b").mpr (Or.inr rfl),
    h.2 "a" (by decide)⟩

/-- Witness for C8: the same container contents enumerated in two different
orders produce mappings with identical lookups. -/
theorem collect_deterministic_witness :
    collect envA ["f"] = some [("x", 1), ("y", 2)] ∧
    collect envB ["f"] = some [("y", 2), ("x", 1)] ∧
    dlookup [("x", 1), ("y", 2)] "x" = dlookup [("y", 2), ("x", 1)] "x" ∧
    dlookup [("x", 1), ("y", 2)] "y" = dlookup [("y", 2), ("x", 1)] "y" := by
  have hA : collect envA ["f"] = some [("x", 1), ("y", 2)] := by decide
  have hB : collect envB ["f"] = some [("y", 2), ("x", 1)] := by decide
  have hequiv : EnvEquiv envA envB := by
    intro p
    by_cases hp : p = "f"
    · subst hp
      refine Or.inr ⟨⟨["x", "y"], gW⟩, ⟨["y", "x"], gW⟩, rfl, rfl, fun k => ?_, rfl⟩
      constructor
      · intro hk
        simp only [List.mem_cons, List.not_mem_nil, or_false] at hk ⊢
        tauto
      · intro hk
        simp only [List.mem_cons, List.not_mem_nil, or_false] at hk ⊢
        tauto
    · exact Or.inl ⟨by simp [envA, hp], by simp [envB, hp]⟩
  have h := collect_deterministic envA envB ["f"] hequiv
  exact ⟨hA, hB, h.2 [("x", 1), ("y", 2)] [("y", 2), ("x", 1)] hA hB "x",
    h.2 [("x", 1), ("y", 2)] [("y", 2), ("x", 1)] hA hB "y"⟩

/-- Witness for C9: splitting the two-path run after the first path, the
intermediate key x survives to the final mapping and the whole run
succeeds. -/
theorem collect_keys_invariant_witness :
    collect envW (["f1"] ++ ["f2"]) = some [("x", 2), ("a", 10), ("b", 20)] ∧
    "x" ∈ dkeys [("x", 2), ("a", 10), ("b", 20)] := by
  have h1 : collectFrom envW [] ["f1"] = some [("x", 1), ("a", 10)] := by decide
  have h2 : collectFrom envW [("x", 1), ("a", 10)] ["f2"] =
      some [("x", 2), ("a", 10), ("b", 20)] := by decide
  have h := collect_keys_invariant envW ["f1"] ["f2"] [("x", 1), ("a", 10)]
    [("x", 2), ("a", 10), ("b", 20)] h1 h2
  exact ⟨h.1, h.2.2.1 "x" (by decide)⟩

/-- Witness for C10: concatenating the two one-path lists, the overlapping
key x takes the second run's value. -/
theorem collect_append_union_witness :
    dlookup [("x", 2), ("a", 10), ("b", 20)] "x" = some 2 := by
  have h1 : collect envW ["f1"] = some [("x", 1), ("a", 10)] := by decide
  have h2 : collect envW ["f2"] = some [("x", 2), ("b", 20)] := by decide
  obtain ⟨d, hd, hk⟩ := collect_append_union envW ["f1"] ["f2"]
    [("x", 1), ("a", 10)] [("x", 2), ("b", 20)] h1 h2
  have hc : collect envW (["f1"] ++ ["f2"]) = some [("x", 2), ("a", 10), ("b", 20)] := by
    decide
  rw [hd] at hc
  have hdd : d = [("x", 2), ("a", 10), ("b", 20)] := Option.some.inj hc
  subst hdd
  rw [hk "x"]
  decide
